import Mathlib

/-!
Verification of the sync/cache engine of `mkdocs-external-custom-emojis`.

The Python source is shallowly embedded: pure methods become Lean
functions, the cache's on-disk state (directory listing plus metadata
table) becomes an explicit `CacheState` record, timestamps are integers
(seconds), and the network is an oracle parameter.  Dictionaries are
modelled as association lists in insertion order, matching Python's
ordered `dict`.
-/

/-- Supported emoji image formats (`models.EmojiFormat`). -/
inductive EmojiFormat where
  | svg
  | png
  | gif
  | jpg
  | webp
deriving DecidableEq, Repr

namespace EmojiFormat

/-- String value of a format (`EmojiFormat` is a `StrEnum` in the source). -/
def value : EmojiFormat → String
  | .svg => "svg"
  | .png => "png"
  | .gif => "gif"
  | .jpg => "jpg"
  | .webp => "webp"

/-- Constructing an `EmojiFormat` from a string (`EmojiFormat(suffix)`);
returns `none` where Python raises `ValueError`. -/
def ofString : String → Option EmojiFormat
  | "svg" => some .svg
  | "png" => some .png
  | "gif" => some .gif
  | "jpg" => some .jpg
  | "webp" => some .webp
  | _ => none

end EmojiFormat

/-- Information about a single emoji (`models.EmojiInfo`). -/
structure EmojiInfo where
  name : String
  url : Option String
  alias_of : Option String := none
  format : Option EmojiFormat := none
  size_bytes : Option Nat := none
deriving DecidableEq, Repr

/-- Test whether the pattern list occurs at the head of the text. -/
def beginsWith : List Char → List Char → Bool
  | [], _ => true
  | _ :: _, [] => false
  | a :: as, b :: bs => a == b && beginsWith as bs

/-- Test whether `needle` occurs as a contiguous substring of `hay`
(Python's `in` operator on strings). -/
def hasSubstr (needle : List Char) : List Char → Bool
  | [] => beginsWith needle []
  | c :: cs => beginsWith needle (c :: cs) || hasSubstr needle cs

/-- Characters up to (excluding) the first occurrence of `c`. -/
def takeUntilChar (c : Char) (l : List Char) : List Char :=
  l.takeWhile (fun x => x ≠ c)

/-- Characters from (excluding) the first occurrence of `c`, or `[]`. -/
def dropThroughChar (c : Char) (l : List Char) : List Char :=
  (l.dropWhile (fun x => x ≠ c)).drop 1

/-- Valid characters of a URL scheme after the leading letter. -/
def isSchemeChar (c : Char) : Bool :=
  c.isAlpha || c.isDigit || c == '+' || c == '-' || c == '.'

/-- Drop a leading `scheme:` from a URL when present
(`urllib.parse.urlsplit` scheme detection). -/
def dropScheme (l : List Char) : List Char :=
  let cand := l.takeWhile (fun x => x ≠ ':' && x ≠ '/' && x ≠ '?' && x ≠ '#')
  match l.drop cand.length with
  | ':' :: rest =>
    match cand with
    | [] => l
    | c :: cs => if c.isAlpha && cs.all isSchemeChar then rest else l
  | _ => l

/-- Path component of a URL (`urllib.parse.urlparse(url).path`):
fragment and query stripped, scheme and authority removed. -/
def urlPath (url : String) : String :=
  let l := takeUntilChar '#' url.toList
  let l := dropScheme l
  let l :=
    match l with
    | '/' :: '/' :: rest => rest.dropWhile (fun x => x ≠ '/' && x ≠ '?')
    | _ => l
  ⟨takeUntilChar '?' l⟩

/-- Suffix of the final path component (`pathlib.PurePath(path).suffix`):
the last dot of the basename must be neither leading nor trailing. -/
def pathSuffix (path : String) : String :=
  let name := ((path.toList.reverse).takeWhile (fun x => x ≠ '/')).reverse
  let post := (name.reverse).takeWhile (fun x => x ≠ '.')
  if post.length + 1 < name.length && 0 < post.length then
    ⟨'.' :: post.reverse⟩
  else
    ""

/-- ASCII lowercasing of one character (`str.lower()` restricted to the
ASCII range, which covers the URL and extension strings compared here). -/
def pyLowerChar (c : Char) : Char :=
  if 'A' ≤ c ∧ c ≤ 'Z' then Char.ofNat (c.toNat + 32) else c

/-- ASCII lowercasing of a string (`str.lower()`). -/
def pyLower (s : String) : String :=
  ⟨s.toList.map pyLowerChar⟩

/-- Python truthiness of a `str | None` value, negated: `not x` is true
exactly when the value is `None` or the empty string. -/
def strOptFalsy : Option String → Bool
  | none => true
  | some s => s == ""

namespace EmojiInfo

/-- Whether this emoji is an alias (`EmojiInfo.is_alias`). -/
def isAlias (e : EmojiInfo) : Bool :=
  e.alias_of.isSome

/-- Detect emoji format from the URL path extension
(`EmojiInfo._detect_format_from_url`). -/
def detect_format_from_url (url : String) : Option EmojiFormat :=
  let suffix := ((pyLower (pathSuffix (urlPath url))).toList.dropWhile (fun x => x = '.'))
  EmojiFormat.ofString ⟨suffix⟩

/-- File extension for this emoji (`EmojiInfo.get_file_extension`):
explicit format, else format detected from the URL path, else `png`. -/
def get_file_extension (e : EmojiInfo) : String :=
  match e.format with
  | some f => f.value
  | none =>
    match e.url with
    | some u =>
      match detect_format_from_url u with
      | some f => f.value
      | none => "png"
    | none => "png"

end EmojiInfo

/-- Name of the cache metadata store file (`EmojiCache.METADATA_FILE`). -/
def METADATA_FILE : String := ".metadata.json"

/-- One persisted metadata row of the cache (`cache.py` stores
`{url, format, size_bytes, cached_at}` per emoji name; any of the keys
may be absent in a hand-edited or legacy file, hence the options). -/
structure MetaEntry where
  url : Option String := none
  format : Option EmojiFormat := none
  size_bytes : Option Nat := none
  cached_at : Option Int := none
deriving DecidableEq, Repr

/-- State of one namespace cache directory: the filenames present in the
directory (including `METADATA_FILE` when that file exists) and the
metadata table, as an association list in insertion order. -/
structure CacheState where
  dirFiles : List String
  metadata : List (String × MetaEntry)
deriving DecidableEq, Repr

/-- Fresh cache on an empty directory: `EmojiCache.__init__` creates the
namespace directory and loads an empty table; it does not write the
metadata file. -/
def CacheState.init : CacheState := { dirFiles := [], metadata := [] }

/-- Add a filename to a directory listing if absent (creating a file;
overwriting keeps the listing unchanged). -/
def ensureFile (f : String) (l : List String) : List String :=
  if l.contains f then l else l ++ [f]

/-- Python `dict` assignment on an association list: overwrite the first
binding in place, or append a new binding. -/
def setEntry (k : String) (v : MetaEntry) : List (String × MetaEntry) → List (String × MetaEntry)
  | [] => [(k, v)]
  | (k', v') :: rest => if k' = k then (k, v) :: rest else (k', v') :: setEntry k v rest

namespace EmojiCache

/-- Test of `_get_cached_path`'s inner loop for one candidate
extension: `f".{possible_ext}" in url_lower`. -/
def extMatches (u x : String) : Bool :=
  hasSubstr ("." ++ x).toList (pyLower u).toList

/-- Extension used for the cached file (`EmojiCache._get_cached_path`):
explicit format, else the first of `svg png gif jpg webp` whose
dot-prefixed form occurs as a substring of the lowercased URL, else
`png`. -/
def cached_ext (e : EmojiInfo) : String :=
  match e.format with
  | some f => f.value
  | none =>
    match e.url with
    | some u =>
      match ["svg", "png", "gif", "jpg", "webp"].find? (fun x => extMatches u x) with
      | some x => x
      | none => "png"
    | none => "png"

/-- Filename of the cached emoji inside the namespace directory
(`EmojiCache._get_cached_path` returns `cache_dir / "{name}.{ext}"`). -/
def cached_file_name (e : EmojiInfo) : String :=
  e.name ++ "." ++ cached_ext e

/-- Freshness check (`EmojiCache.is_cached`): name present in the
metadata table, file present on disk, timestamp present, and age
strictly below the TTL.  Times are seconds; `timedelta(hours=h)` is
`h * 3600`. -/
def is_cached (now ttl_hours : Int) (st : CacheState) (e : EmojiInfo) : Bool :=
  match st.metadata.lookup e.name with
  | none => false
  | some m =>
    if st.dirFiles.contains (cached_file_name e) then
      match m.cached_at with
      | none => false
      | some t => decide (now - t < ttl_hours * 3600)
    else false

/-- Storing a downloaded file (`EmojiCache.store`): copy the staged file
to the cached path, overwrite the metadata row, save the metadata file. -/
def store (now : Int) (st : CacheState) (e : EmojiInfo) (size : Nat) : CacheState :=
  { dirFiles := ensureFile METADATA_FILE (ensureFile (cached_file_name e) st.dirFiles)
    metadata := setEntry e.name
      { url := e.url, format := e.format, size_bytes := some size, cached_at := some now }
      st.metadata }

/-- Cache clean (`EmojiCache.clean`): unlink every file except the
metadata store file, reset the table, save the (now empty) metadata
file; returns the number of files removed together with the new state. -/
def clean (st : CacheState) : Nat × CacheState :=
  let removed := st.dirFiles.filter (fun f => f ≠ METADATA_FILE)
  (removed.length,
    { dirFiles := ensureFile METADATA_FILE (st.dirFiles.filter (fun f => f = METADATA_FILE))
      metadata := [] })

/-- File count reported by `EmojiCache.get_stats`:
`len(list(self.cache_dir.glob("*"))) - 1` (the glob matches every entry
of the directory, the metadata file included when it exists). -/
def stats_total_files (st : CacheState) : Int :=
  (st.dirFiles.length : Int) - 1

end EmojiCache

/-- Split a bracket-expression body at its closing `]`, returning the
class characters and the remainder of the pattern. -/
def splitAtRBracket : List Char → Option (List Char × List Char)
  | [] => none
  | c :: t =>
    if c = ']' then some ([], t)
    else
      match splitAtRBracket t with
      | some (b, r) => some (c :: b, r)
      | none => none

/-- Body of a bracket expression: a `]` in first position is a literal
member; the body runs to the next `]`, and an unclosed bracket fails. -/
def bracketBody (l : List Char) : Option (List Char × List Char) :=
  match l with
  | ']' :: t =>
    match splitAtRBracket t with
    | some (b, r) => some (']' :: b, r)
    | none => none
  | _ => splitAtRBracket l

/-- Parse a glob bracket expression after the opening `[`: optional `!`
negation followed by the body. -/
def parseBracket (l : List Char) : Option (Bool × List Char × List Char) :=
  match l with
  | '!' :: rest =>
    match bracketBody rest with
    | some (b, r) => some (true, b, r)
    | none => none
  | _ =>
    match bracketBody l with
    | some (b, r) => some (false, b, r)
    | none => none

/-- Match a character against the characters of a bracket expression:
`x-y` forms a code-point range (matching nothing when descending), any
other character is a literal member, as in the regex produced by
`fnmatch.translate`. -/
def classMatch : List Char → Char → Bool
  | [], _ => false
  | a :: '-' :: b :: rest, c =>
    (a.val ≤ c.val && c.val ≤ b.val) || classMatch rest c
  | a :: rest, c => a == c || classMatch rest c

theorem splitAtRBracket_length :
    ∀ l b r, splitAtRBracket l = some (b, r) → r.length < l.length := by
  intro l
  induction l with
  | nil => intro b r h; simp [splitAtRBracket] at h
  | cons c t ih =>
    intro b r h
    simp only [splitAtRBracket] at h
    split at h
    · cases h
      simp
    · cases hsp : splitAtRBracket t with
      | none => rw [hsp] at h; cases h
      | some p =>
        obtain ⟨b', r'⟩ := p
        rw [hsp] at h
        cases h
        have := ih b' r hsp
        simp
        omega

theorem bracketBody_length :
    ∀ l b r, bracketBody l = some (b, r) → r.length < l.length := by
  intro l b r h
  simp only [bracketBody] at h
  split at h
  · rename_i t
    cases hsp : splitAtRBracket t with
    | none => rw [hsp] at h; cases h
    | some p =>
      obtain ⟨b', r'⟩ := p
      rw [hsp] at h
      cases h
      have := splitAtRBracket_length t b' r hsp
      simp
      omega
  · exact splitAtRBracket_length l b r h

theorem parseBracket_length :
    ∀ l n cls r, parseBracket l = some (n, cls, r) → r.length < l.length := by
  intro l n cls r h
  simp only [parseBracket] at h
  split at h
  · rename_i rest
    cases hb : bracketBody rest with
    | none => rw [hb] at h; cases h
    | some p =>
      obtain ⟨b', r'⟩ := p
      rw [hb] at h
      cases h
      have := bracketBody_length rest _ r hb
      simp
      omega
  · cases hb : bracketBody l with
    | none => rw [hb] at h; cases h
    | some p =>
      obtain ⟨b', r'⟩ := p
      rw [hb] at h
      cases h
      exact bracketBody_length l _ r hb

/-- Glob matching as compiled by `fnmatch.translate` and executed by
`re.fullmatch`: `*` matches any sequence (newlines included), `?` any
single character, bracket expressions one character of a class; every
other character, and an unclosed `[`, matches itself literally. -/
def globMatch (p s : List Char) : Bool :=
  match p, s with
  | [], [] => true
  | [], _ :: _ => false
  | '*' :: ps, s =>
    globMatch ps s ||
      match s with
      | [] => false
      | _ :: s' => globMatch ('*' :: ps) s'
  | '?' :: ps, _ :: s' => globMatch ps s'
  | '?' :: _, [] => false
  | '[' :: ps, s =>
    match hpb : parseBracket ps with
    | some (neg, cls, rest) =>
      match s with
      | [] => false
      | c :: s' => (neg != classMatch cls c) && globMatch rest s'
    | none =>
      match s with
      | [] => false
      | c :: s' => ('[' == c) && globMatch ps s'
  | pc :: ps, c :: s' => pc == c && globMatch ps s'
  | _ :: _, [] => false
termination_by (p.length + s.length, s.length)
decreasing_by
  all_goals simp_wf
  all_goals try omega
  all_goals (have hlt := parseBracket_length _ _ _ _ hpb; omega)

/-- Python `fnmatch.fnmatch(name, pattern)` on a POSIX system, where
`os.path.normcase` is the identity. -/
def fnmatch (name pattern : String) : Bool :=
  globMatch pattern.toList name.toList

namespace AbstractEmojiProvider

/-- Filtering on include/exclude glob patterns
(`AbstractEmojiProvider.filter_emojis`): with both lists empty the
mapping is returned unchanged; otherwise a name is dropped when it
matches some exclude pattern, and also dropped when include patterns
exist and it matches none of them. -/
def filter_emojis (include_patterns exclude_patterns : List String)
    (emojis : List (String × EmojiInfo)) : List (String × EmojiInfo) :=
  if include_patterns.isEmpty && exclude_patterns.isEmpty then emojis
  else
    emojis.filter (fun p =>
      !(!exclude_patterns.isEmpty &&
          exclude_patterns.any (fun pat => fnmatch p.1 pat)) &&
      !(!include_patterns.isEmpty &&
          !include_patterns.any (fun pat => fnmatch p.1 pat)))

/-- Alias chain walk of `AbstractEmojiProvider.resolve_aliases`: follow
`alias_of` hops through the original mapping while the current target
exists and is itself an alias, for as long as fuel (`max_depth` minus
the hops already taken) remains. -/
def walkChain (emojis : List (String × EmojiInfo)) : Nat → String → String
  | 0, target => target
  | fuel + 1, target =>
    match emojis.lookup target with
    | none => target
    | some e =>
      if e.isAlias then
        match e.alias_of with
        | none => target
        | some nt => walkChain emojis fuel nt
      else target

/-- One iteration of the second pass of `resolve_aliases`: the guard
`if emoji.is_alias and emoji.alias_of:` skips non-aliases and aliases
whose target is the falsy empty string; otherwise the chain is walked (at most
`max_depth = 10` hops beyond the first) and, when the final target is
present in the resolved mapping built so far, a copy of that target
under the alias name is appended. -/
def resolveStep (emojis : List (String × EmojiInfo))
    (resolved : List (String × EmojiInfo)) (p : String × EmojiInfo) :
    List (String × EmojiInfo) :=
  if p.2.isAlias && !strOptFalsy p.2.alias_of then
    match p.2.alias_of with
    | none => resolved
    | some t0 =>
      let target := walkChain emojis 10 t0
      match resolved.lookup target with
      | none => resolved
      | some tgt =>
        resolved ++ [(p.1, { name := p.1, url := tgt.url, format := tgt.format })]
  else resolved

/-- Alias resolution (`AbstractEmojiProvider.resolve_aliases`): first
pass copies the non-aliases in order, second pass appends resolved
aliases in order (with unique keys an append is exactly Python's dict
insertion). -/
def resolve_aliases (emojis : List (String × EmojiInfo)) : List (String × EmojiInfo) :=
  emojis.foldl (resolveStep emojis) (emojis.filter (fun p => !p.2.isAlias))

end AbstractEmojiProvider

/-- Result of an emoji sync operation (`models.SyncResult`). -/
structure SyncResult where
  provider : String
  nspace : String
  total_emojis : Nat
  synced : Nat
  cached : Nat
  skipped : Nat
  errors : List String := []
deriving DecidableEq, Repr

/-- An HTTP response for one emoji download, as the downloader observes
it after `raise_for_status` succeeded: the declared content length (when
the header is present) and the sizes of the successive chunks
`iter_content` yields. -/
structure HttpResponse where
  contentLength : Option Nat
  chunks : List Nat
deriving DecidableEq, Repr

/-- Outcome of one download: the result (`ok` carries `total_size`, the
byte count returned alongside the staged path), the number of body bytes
read from the network, and the size of the staged temporary file still
on disk (`none` when no file remains). -/
structure DownloadOutcome where
  result : Except String Nat
  bytesRead : Nat
  tempFile : Option Nat
deriving Repr

namespace EmojiDownloader

/-- Streaming loop of `EmojiDownloader.download`: empty chunks are
skipped; each nonempty chunk is added to the running total, the limit is
checked before the chunk is written, and on overflow the partial staged
file is unlinked and a `DownloadError` is raised. -/
def streamChunks (maxBytes : Nat) : List Nat → Nat → Nat → DownloadOutcome
  | [], total, written => { result := .ok total, bytesRead := total, tempFile := some written }
  | c :: rest, total, written =>
    if c = 0 then streamChunks maxBytes rest total written
    else
      let t := total + c
      if maxBytes < t then
        { result := .error "exceeds size limit during download", bytesRead := t,
          tempFile := none }
      else streamChunks maxBytes rest t (written + c)

/-- Validation step after a fully staged body
(`EmojiDownloader._validate_image` following the streaming loop): a
stream error is re-raised as a `DownloadError`; an invalid image raises
a `DownloadError` without deleting the staged file. -/
def finishDownload (out : DownloadOutcome) (imageValid : Bool) : DownloadOutcome :=
  match out.result with
  | .error e => { out with result := .error e }
  | .ok _ =>
    if imageValid then out
    else { out with result := .error "Invalid image file" }

/-- Streaming and validation part of `EmojiDownloader.download`. -/
def downloadBody (max_size_kb : Nat) (resp : HttpResponse) (imageValid : Bool) :
    DownloadOutcome :=
  finishDownload (streamChunks (max_size_kb * 1024) resp.chunks 0 0) imageValid

/-- Download of one emoji body (`EmojiDownloader.download`, given a
response whose status check already passed): the declared content length
is rejected up front when `size_bytes / 1024 > max_size_kb` (equivalently
`size_bytes > max_size_kb * 1024` over the exact rationals Python's
float division computes here); then the body is streamed under the limit
`max_size_kb * 1024`; finally the staged file must decode as an image
(`imageValid` abstracts PIL), a failure leaving the staged file behind. -/
def download (max_size_kb : Nat) (resp : HttpResponse) (imageValid : Bool) : DownloadOutcome :=
  match resp.contentLength with
  | some n =>
    if max_size_kb * 1024 < n then
      { result := .error "too large", bytesRead := 0, tempFile := none }
    else downloadBody max_size_kb resp imageValid
  | none => downloadBody max_size_kb resp imageValid

end EmojiDownloader

namespace SyncManager

/-- State threaded through the download loop of
`SyncManager.sync_provider`: result record so far, cache state, number
of downloads attempted. -/
structure LoopState where
  result : SyncResult
  cache : CacheState
  downloads : Nat

/-- One iteration of the download loop of `SyncManager.sync_provider`:
skip as `cached` when fresh-cached and not forcing; count a falsy URL —
`None` or the empty string, as `if not emoji.url:` tests — as `skipped`
with an error note; otherwise attempt the download through the oracle,
storing on success (`synced`) and recording the error on
`DownloadError` (`skipped`). -/
def syncStep (oracle : EmojiInfo → Except String Nat) (now ttl_hours : Int)
    (force : Bool) (acc : LoopState) (p : String × EmojiInfo) : LoopState :=
  let r := acc.result
  if !force && EmojiCache.is_cached now ttl_hours acc.cache p.2 then
    { acc with result := { r with cached := r.cached + 1 } }
  else if strOptFalsy p.2.url then
    { acc with result :=
        { r with skipped := r.skipped + 1,
                 errors := r.errors ++ ["No URL for emoji: " ++ p.1] } }
  else
    match oracle p.2 with
    | .ok size =>
      { result := { r with synced := r.synced + 1 },
        cache := EmojiCache.store now acc.cache p.2 size,
        downloads := acc.downloads + 1 }
    | .error msg =>
      { acc with
        result := { r with skipped := r.skipped + 1, errors := r.errors ++ [msg] },
        downloads := acc.downloads + 1 }

/-- Sync of one provider (`SyncManager.sync_provider`).  `fetchResult`
is the outcome of `provider.fetch_emojis()` (`Except.error` standing for
a raised exception, which the source catches and never propagates);
`oracle` is the downloader, returning the stored byte size or the
message of a `DownloadError`.  Returns the aggregate result, the final
cache state and the number of download attempts. -/
def sync_provider (providerType nspace : String)
    (fetchResult : Except String (List (String × EmojiInfo)))
    (oracle : EmojiInfo → Except String Nat) (st : CacheState)
    (now ttl_hours : Int) (force clean_on_build : Bool) : LoopState :=
  match fetchResult with
  | .error msg =>
    { result :=
        { provider := providerType, nspace := nspace, total_emojis := 0,
          synced := 0, cached := 0, skipped := 0,
          errors := ["Failed to fetch emojis: " ++ msg] },
      cache := st, downloads := 0 }
  | .ok emojis =>
    let st1 := if clean_on_build || force then (EmojiCache.clean st).2 else st
    let init : LoopState :=
      { result :=
          { provider := providerType, nspace := nspace,
            total_emojis := emojis.length, synced := 0, cached := 0,
            skipped := 0, errors := [] },
        cache := st1, downloads := 0 }
    emojis.foldl (syncStep oracle now ttl_hours force) init

end SyncManager

section LookupLemmas

variable {β : Type}

theorem lookup_cons_self (k : String) (v : β) (l : List (String × β)) :
    ((k, v) :: l).lookup k = some v := by
  simp [List.lookup]

theorem lookup_cons_ne (k k' : String) (v : β) (l : List (String × β)) (h : k ≠ k') :
    ((k', v) :: l).lookup k = l.lookup k := by
  have hb : (k == k') = false := beq_eq_false_iff_ne.mpr h
  simp [List.lookup, hb]

theorem lookup_append_some (k : String) (v : β) (l1 l2 : List (String × β))
    (h : l1.lookup k = some v) : (l1 ++ l2).lookup k = some v := by
  induction l1 with
  | nil => simp [List.lookup] at h
  | cons x xs ih =>
    obtain ⟨k', v'⟩ := x
    by_cases hk : k = k'
    · subst hk
      rw [lookup_cons_self] at h
      simpa [List.lookup] using h
    · rw [lookup_cons_ne k k' v' xs hk] at h
      rw [List.cons_append, lookup_cons_ne k k' v' (xs ++ l2) hk]
      exact ih h

theorem lookup_append_none (k : String) (l1 l2 : List (String × β))
    (h : l1.lookup k = none) : (l1 ++ l2).lookup k = l2.lookup k := by
  induction l1 with
  | nil => simp
  | cons x xs ih =>
    obtain ⟨k', v'⟩ := x
    by_cases hk : k = k'
    · subst hk; rw [lookup_cons_self] at h; cases h
    · rw [lookup_cons_ne k k' v' xs hk] at h
      rw [List.cons_append, lookup_cons_ne k k' v' (xs ++ l2) hk]
      exact ih h

theorem lookup_filter_of_eq_false (k : String) (p : String × β → Bool)
    (l : List (String × β)) (h : ∀ x ∈ l, x.1 = k → p x = false) :
    (l.filter p).lookup k = none := by
  induction l with
  | nil => simp
  | cons x xs ih =>
    obtain ⟨k', v'⟩ := x
    by_cases hk : k = k'
    · have hp : p (k', v') = false := h (k', v') (by simp) (by simp [hk])
      rw [List.filter_cons, hp]
      exact ih (fun x hx => h x (by simp [hx]))
    · rw [List.filter_cons]
      cases hp : p (k', v') with
      | false => exact ih (fun x hx => h x (by simp [hx]))
      | true =>
        simp only [if_true]
        rw [lookup_cons_ne k k' v' _ hk]
        exact ih (fun x hx => h x (by simp [hx]))

theorem lookup_filter_of_eq_true (k : String) (v : β) (p : String × β → Bool)
    (l : List (String × β)) (h : l.lookup k = some v) (hp : p (k, v) = true) :
    (l.filter p).lookup k = some v := by
  induction l with
  | nil => simp [List.lookup] at h
  | cons x xs ih =>
    obtain ⟨k', v'⟩ := x
    by_cases hk : k = k'
    · subst hk
      rw [lookup_cons_self] at h
      cases h
      rw [List.filter_cons, hp]
      simp only [if_true]
      exact lookup_cons_self k v (xs.filter p)
    · rw [lookup_cons_ne k k' v' xs hk] at h
      rw [List.filter_cons]
      cases hq : p (k', v') with
      | false => exact ih h
      | true =>
        simp only [if_true]
        rw [lookup_cons_ne k k' v' _ hk]
        exact ih h

theorem lookup_mem (k : String) (v : β) (l : List (String × β))
    (h : l.lookup k = some v) : (k, v) ∈ l := by
  induction l with
  | nil => simp [List.lookup] at h
  | cons x xs ih =>
    obtain ⟨k', v'⟩ := x
    by_cases hk : k = k'
    · subst hk
      rw [lookup_cons_self] at h
      cases h
      simp
    · rw [lookup_cons_ne k k' v' xs hk] at h
      simp [ih h]

theorem lookup_of_mem_of_nodup (k : String) (v : β) (l : List (String × β))
    (hnd : (l.map Prod.fst).Nodup) (h : (k, v) ∈ l) : l.lookup k = some v := by
  induction l with
  | nil => simp at h
  | cons x xs ih =>
    obtain ⟨k', v'⟩ := x
    simp only [List.map_cons, List.nodup_cons] at hnd
    rcases List.mem_cons.mp h with heq | hmem
    · cases heq
      exact lookup_cons_self k v xs
    · have hk : k ≠ k' := by
        intro hkk
        subst hkk
        exact hnd.1 (List.mem_map.mpr ⟨(k, v), hmem, rfl⟩)
      rw [lookup_cons_ne k k' v' xs hk]
      exact ih hnd.2 hmem

theorem mem_eq_of_nodup_keys (k : String) (v : β) (x : String × β) (l : List (String × β))
    (hnd : (l.map Prod.fst).Nodup) (h : l.lookup k = some v) (hx : x ∈ l) (hk : x.1 = k) :
    x = (k, v) := by
  obtain ⟨k', v'⟩ := x
  simp only at hk
  subst hk
  have h2 := lookup_of_mem_of_nodup k' v' l hnd hx
  rw [h] at h2
  cases h2
  rfl

end LookupLemmas

theorem mem_ensureFile (f g : String) (l : List String) :
    f ∈ ensureFile g l ↔ f ∈ l ∨ f = g := by
  unfold ensureFile
  split
  · rename_i h
    constructor
    · exact fun hf => Or.inl hf
    · rintro (hf | rfl)
      · exact hf
      · exact List.contains_iff_exists_mem_beq.mp h |>.elim
          (fun x hx => by
            obtain ⟨hx1, hx2⟩ := hx
            rwa [show f = x from beq_iff_eq.mp hx2])
  · simp

theorem self_mem_ensureFile (g : String) (l : List String) : g ∈ ensureFile g l := by
  rw [mem_ensureFile]
  exact Or.inr rfl

theorem is_cached_iff_conditions (now ttl_hours : Int) (st : CacheState) (e : EmojiInfo) :
    EmojiCache.is_cached now ttl_hours st e = true ↔
      ∃ m, st.metadata.lookup e.name = some m ∧
        EmojiCache.cached_file_name e ∈ st.dirFiles ∧
        ∃ t, m.cached_at = some t ∧ now - t < ttl_hours * 3600 := by
  cases hm : st.metadata.lookup e.name with
  | none => simp [EmojiCache.is_cached, hm]
  | some m =>
    by_cases hf : EmojiCache.cached_file_name e ∈ st.dirFiles
    · have hfc : st.dirFiles.contains (EmojiCache.cached_file_name e) = true :=
        List.elem_iff.mpr hf
      cases hc : m.cached_at with
      | none => simp [EmojiCache.is_cached, hm, hc, hfc, hf]
      | some t => simp [EmojiCache.is_cached, hm, hc, hfc, hf]
    · have hfc : st.dirFiles.contains (EmojiCache.cached_file_name e) = false := by
        rw [Bool.eq_false_iff]
        exact fun h => hf (List.elem_iff.mp h)
      simp [EmojiCache.is_cached, hm, hfc, hf]

/-- C4: the cache validity check is exactly the conjunction of the four
conditions: the name has a metadata row, the file is present in the
cache directory at the expected name, the `cached_at` timestamp is
present, and the age of that timestamp is strictly below the TTL (an age
equal to the TTL already fails). -/
theorem is_cached_iff_valid (now ttl_hours : Int) (st : CacheState) (e : EmojiInfo) :
    EmojiCache.is_cached now ttl_hours st e = true ↔
      ∃ m, st.metadata.lookup e.name = some m ∧
        EmojiCache.cached_file_name e ∈ st.dirFiles ∧
        ∃ t, m.cached_at = some t ∧ now - t < ttl_hours * 3600 :=
  is_cached_iff_conditions now ttl_hours st e

/-- C8: `clean` returns exactly the number of non-metadata files that
were in the namespace directory (the asset files it unlinks), leaves a
directory in which every remaining file is the metadata store file —
which is present, `_save_metadata` having just written it — and empties
the metadata table. -/
theorem clean_spec (st : CacheState) :
    (EmojiCache.clean st).1 = (st.dirFiles.filter (fun f => f ≠ METADATA_FILE)).length ∧
    (∀ f ∈ (EmojiCache.clean st).2.dirFiles, f = METADATA_FILE) ∧
    METADATA_FILE ∈ (EmojiCache.clean st).2.dirFiles ∧
    (EmojiCache.clean st).2.metadata = [] := by
  refine ⟨rfl, ?_, ?_, rfl⟩
  · intro f hf
    simp only [EmojiCache.clean] at hf
    rcases (mem_ensureFile f METADATA_FILE _).mp hf with hmem | rfl
    · have := List.mem_filter.mp hmem
      exact of_decide_eq_true this.2
    · rfl
  · exact self_mem_ensureFile METADATA_FILE _

/-- C9 counterexample: on a freshly created empty cache the reported
file count is `-1`, not `0`: the namespace directory holds zero entries
(the constructor creates the directory but never writes the metadata
file) and `get_stats` subtracts 1 unconditionally. -/
theorem stats_fresh_cache_cex :
    EmojiCache.stats_total_files CacheState.init = -1 ∧
    (CacheState.init.dirFiles.filter (fun f => f ≠ METADATA_FILE)).length = 0 ∧
    EmojiCache.stats_total_files CacheState.init ≠
      ((CacheState.init.dirFiles.filter (fun f => f ≠ METADATA_FILE)).length : Int) := by
  refine ⟨rfl, rfl, by decide⟩

theorem length_filter_ne_metadata (l : List String) (hm : METADATA_FILE ∈ l)
    (hnd : l.Nodup) :
    (l.filter (fun f => f ≠ METADATA_FILE)).length + 1 = l.length := by
  induction l with
  | nil => simp at hm
  | cons x xs ih =>
    rcases List.nodup_cons.mp hnd with ⟨hx, hxs⟩
    rcases List.mem_cons.mp hm with heq | hmem
    · subst heq
      rw [List.filter_cons_of_neg (by simp)]
      rw [List.filter_eq_self.mpr]
      · simp
      · intro y hy
        simp only [decide_eq_true_eq]
        intro hcontra
        exact hx (hcontra ▸ hy)
    · have hxm : x ≠ METADATA_FILE := fun h => hx (h ▸ hmem)
      rw [List.filter_cons_of_pos (by simp [hxm])]
      simp only [List.length_cons]
      rw [ih hmem hxs]

/-- C9 (amended): `get_stats` reports the number of entries in the
namespace directory minus one; whenever the metadata store file exists
(as it does after any store or clean) this equals the number of asset
files, the metadata file excluded — but on a directory without a
metadata file (a fresh cache) the count is one short, `-1` when empty. -/
theorem stats_total_files_spec (st : CacheState) (hm : METADATA_FILE ∈ st.dirFiles)
    (hnd : st.dirFiles.Nodup) :
    EmojiCache.stats_total_files st =
      ((st.dirFiles.filter (fun f => f ≠ METADATA_FILE)).length : Int) := by
  unfold EmojiCache.stats_total_files
  have := length_filter_ne_metadata st.dirFiles hm hnd
  omega

/-- Witness for C9's amended theorem at a concrete two-file directory. -/
theorem stats_total_files_spec_witness :
    EmojiCache.stats_total_files { dirFiles := [".metadata.json", "a.png"], metadata := [] } =
      (1 : Int) :=
  stats_total_files_spec { dirFiles := [".metadata.json", "a.png"], metadata := [] }
    (by decide) (by decide)

/-- C2 counterexample: for `format = None` and
`url = "https://host/a.svg.png"` the claim's rule — extension parsed
from the URL's path component, accepted only on an exact match — yields
`png` (the path suffix is `.png`, and `get_file_extension`, which
implements exactly that rule, returns `"png"`), but the on-disk cached
filename is produced by `_get_cached_path`, whose substring search over
the whole lowercased URL finds `".svg"` first and returns `"svg"`, so
the cached file is `x.svg`, not the claimed `x.png`. -/
theorem cached_ext_cex :
    EmojiCache.cached_ext { name := "x", url := some "https://host/a.svg.png" } = "svg" ∧
    EmojiInfo.get_file_extension { name := "x", url := some "https://host/a.svg.png" } = "png" ∧
    EmojiCache.cached_file_name { name := "x", url := some "https://host/a.svg.png" } = "x.svg" ∧
    ("x.svg" : String) ≠ "x.png" := by
  refine ⟨by decide, by decide, by decide, by decide⟩

/-- C2 (amended): the cached filename's extension is chosen by: explicit
`format` field first; otherwise the first of the literals
`svg png gif jpg webp` whose dot-prefixed form occurs as a substring
anywhere in the lowercased `source_url` (not only as the path suffix);
otherwise the `png` fallback.  The claim's three examples are unchanged:
`format=gif` with a `.png` URL gives `gif`; `format=None` with
`".../x.webp?v=1"` gives `webp`; `format=None` with `"https://x/y"`
gives `png`. -/
theorem cached_ext_spec :
    (∀ (name : String) (u a : Option String) (f : EmojiFormat) (sb : Option Nat),
        EmojiCache.cached_ext ⟨name, u, a, some f, sb⟩ = f.value) ∧
    (∀ (name : String) (a : Option String) (sb : Option Nat),
        EmojiCache.cached_ext ⟨name, none, a, none, sb⟩ = "png") ∧
    (∀ (name u : String) (a : Option String) (sb : Option Nat) (i : Nat),
        i < 5 →
        (∀ j, j < i →
          EmojiCache.extMatches u (["svg", "png", "gif", "jpg", "webp"].getD j "") = false) →
        EmojiCache.extMatches u (["svg", "png", "gif", "jpg", "webp"].getD i "") = true →
        EmojiCache.cached_ext ⟨name, some u, a, none, sb⟩ =
          ["svg", "png", "gif", "jpg", "webp"].getD i "") ∧
    (∀ (name u : String) (a : Option String) (sb : Option Nat),
        (∀ x ∈ ["svg", "png", "gif", "jpg", "webp"], EmojiCache.extMatches u x = false) →
        EmojiCache.cached_ext ⟨name, some u, a, none, sb⟩ = "png") ∧
    EmojiCache.cached_ext
      { name := "cat", url := some "https://e.com/x.png", format := some .gif } = "gif" ∧
    EmojiCache.cached_ext { name := "m", url := some "https://x/x.webp?v=1" } = "webp" ∧
    EmojiCache.cached_ext { name := "y", url := some "https://x/y" } = "png" := by
  refine ⟨fun name u a f sb => rfl, fun name a sb => rfl, ?_, ?_, by decide, by decide, by decide⟩
  · intro name u a sb i hi hlt hit
    interval_cases i
    · have h0 : EmojiCache.extMatches u "svg" = true := hit
      simp [EmojiCache.cached_ext, List.find?, h0]
    · have h0 : EmojiCache.extMatches u "svg" = false := hlt 0 (by omega)
      have h1 : EmojiCache.extMatches u "png" = true := hit
      simp [EmojiCache.cached_ext, List.find?, h0, h1]
    · have h0 : EmojiCache.extMatches u "svg" = false := hlt 0 (by omega)
      have h1 : EmojiCache.extMatches u "png" = false := hlt 1 (by omega)
      have h2 : EmojiCache.extMatches u "gif" = true := hit
      simp [EmojiCache.cached_ext, List.find?, h0, h1, h2]
    · have h0 : EmojiCache.extMatches u "svg" = false := hlt 0 (by omega)
      have h1 : EmojiCache.extMatches u "png" = false := hlt 1 (by omega)
      have h2 : EmojiCache.extMatches u "gif" = false := hlt 2 (by omega)
      have h3 : EmojiCache.extMatches u "jpg" = true := hit
      simp [EmojiCache.cached_ext, List.find?, h0, h1, h2, h3]
    · have h0 : EmojiCache.extMatches u "svg" = false := hlt 0 (by omega)
      have h1 : EmojiCache.extMatches u "png" = false := hlt 1 (by omega)
      have h2 : EmojiCache.extMatches u "gif" = false := hlt 2 (by omega)
      have h3 : EmojiCache.extMatches u "jpg" = false := hlt 3 (by omega)
      have h4 : EmojiCache.extMatches u "webp" = true := hit
      simp [EmojiCache.cached_ext, List.find?, h0, h1, h2, h3, h4]
  · intro name u a sb hall
    have h0 := hall "svg" (by simp)
    have h1 := hall "png" (by simp)
    have h2 := hall "gif" (by simp)
    have h3 := hall "jpg" (by simp)
    have h4 := hall "webp" (by simp)
    simp [EmojiCache.cached_ext, List.find?, h0, h1, h2, h3, h4]

/-- Witness for C2's amended theorem: the first-match rule applied at
`gif` (the two earlier literals absent from the URL) and the all-absent
`png` fallback. -/
theorem cached_ext_spec_witness :
    EmojiCache.cached_ext { name := "i", url := some "https://x/i.gif" } = "gif" ∧
    EmojiCache.cached_ext { name := "z", url := some "https://x/z.txt" } = "png" :=
  ⟨cached_ext_spec.2.2.1 "i" "https://x/i.gif" none none 2 (by omega)
      (fun j hj => by interval_cases j <;> decide) (by decide),
    cached_ext_spec.2.2.2.1 "z" "https://x/z.txt" none none
      (fun x hx => by fin_cases hx <;> decide)⟩

/-- C7: exclusion is evaluated before inclusion, so any name matching an
exclude pattern is absent from the filtered mapping no matter what the
include patterns say; and on the claim's example set with
`include=["party*"]`, `exclude=["*blob"]` exactly `partyparrot`
survives. -/
theorem filter_emojis_exclude_wins :
    (∀ (inc exc : List String) (emojis : List (String × EmojiInfo)) (name : String),
        exc.any (fun pat => fnmatch name pat) = true →
        (AbstractEmojiProvider.filter_emojis inc exc emojis).lookup name = none) ∧
    AbstractEmojiProvider.filter_emojis ["party*"] ["*blob"]
        [("partyparrot", { name := "partyparrot", url := some "https://e/p.gif" }),
          ("party_blob", { name := "party_blob", url := some "https://e/b.gif" }),
          ("catjam", { name := "catjam", url := some "https://e/c.gif" }),
          ("thumbsup", { name := "thumbsup", url := some "https://e/t.png" })] =
      [("partyparrot", { name := "partyparrot", url := some "https://e/p.gif" })] := by
  constructor
  · intro inc exc emojis name hx
    have hne : exc.isEmpty = false := by
      cases exc with
      | nil => simp at hx
      | cons a l => rfl
    unfold AbstractEmojiProvider.filter_emojis
    rw [if_neg (by simp [hne])]
    apply lookup_filter_of_eq_false
    intro x hxl hxn
    simp [hxn, hne, hx]
  · simp [AbstractEmojiProvider.filter_emojis, fnmatch, globMatch, List.filter]

/-- Witness for C7: the name `party_blob` matches both the include and
the exclude pattern and is excluded. -/
theorem filter_emojis_exclude_wins_witness :
    (AbstractEmojiProvider.filter_emojis ["party*"] ["*blob"]
        [("party_blob", { name := "party_blob", url := some "https://e/b.gif" })]).lookup
      "party_blob" = none :=
  filter_emojis_exclude_wins.1 ["party*"] ["*blob"]
    [("party_blob", { name := "party_blob", url := some "https://e/b.gif" })] "party_blob"
    (by simp [fnmatch, globMatch])

theorem streamChunks_overflow (maxBytes : Nat) :
    ∀ (chunks : List Nat) (total written : Nat), total ≤ maxBytes →
      maxBytes < total + chunks.sum →
      (EmojiDownloader.streamChunks maxBytes chunks total written).result =
        Except.error "exceeds size limit during download" ∧
      (EmojiDownloader.streamChunks maxBytes chunks total written).tempFile = none := by
  intro chunks
  induction chunks with
  | nil =>
    intro total written h1 h2
    simp at h2
    omega
  | cons c rest ih =>
    intro total written h1 h2
    rw [List.sum_cons] at h2
    by_cases hc : c = 0
    · subst hc
      simp only [EmojiDownloader.streamChunks, if_pos rfl]
      exact ih total written h1 (by omega)
    · simp only [EmojiDownloader.streamChunks, if_neg hc]
      by_cases ht : maxBytes < total + c
      · rw [if_pos ht]
        exact ⟨rfl, rfl⟩
      · rw [if_neg ht]
        exact ih (total + c) (written + c) (by omega) (by omega)

/-- C5: two size checkpoints of the downloader.  (a) A declared
content-length whose size in KB exceeds the maximum fails with a
`DownloadError` before any body byte is read and before any staged file
exists.  (b) When the header passed (absent or within bounds) but the
cumulative streamed bytes exceed `max_size_kb * 1024`, the download
fails with a `DownloadError` and the partial staged file has been
deleted, so no file remains. -/
theorem download_size_enforcement :
    (∀ (maxKb : Nat) (resp : HttpResponse) (valid : Bool) (n : Nat),
        resp.contentLength = some n → maxKb * 1024 < n →
        (EmojiDownloader.download maxKb resp valid).result = Except.error "too large" ∧
        (EmojiDownloader.download maxKb resp valid).bytesRead = 0 ∧
        (EmojiDownloader.download maxKb resp valid).tempFile = none) ∧
    (∀ (maxKb : Nat) (resp : HttpResponse) (valid : Bool),
        (∀ n, resp.contentLength = some n → n ≤ maxKb * 1024) →
        maxKb * 1024 < resp.chunks.sum →
        (∃ msg, (EmojiDownloader.download maxKb resp valid).result = Except.error msg) ∧
        (EmojiDownloader.download maxKb resp valid).tempFile = none) := by
  constructor
  · intro maxKb resp valid n hn hlt
    simp [EmojiDownloader.download, hn, hlt]
  · intro maxKb resp valid hhdr hsum
    have hbody :
        (∃ msg, (EmojiDownloader.downloadBody maxKb resp valid).result =
            Except.error msg) ∧
        (EmojiDownloader.downloadBody maxKb resp valid).tempFile = none := by
      have hover := streamChunks_overflow (maxKb * 1024) resp.chunks 0 0 (by omega)
        (by omega)
      unfold EmojiDownloader.downloadBody EmojiDownloader.finishDownload
      rw [hover.1]
      exact ⟨⟨"exceeds size limit during download", rfl⟩, hover.2⟩
    cases hcl : resp.contentLength with
    | none => simpa [EmojiDownloader.download, hcl] using hbody
    | some n =>
      have hle : ¬(maxKb * 1024 < n) := by
        have := hhdr n hcl
        omega
      simpa [EmojiDownloader.download, hcl, hle] using hbody

/-- Witness for C5: (a) a 2000-byte declaration against a 1 KB limit is
rejected with nothing read; (b) a single 2000-byte chunk against a 1 KB
limit aborts mid-stream leaving no staged file. -/
theorem download_size_enforcement_witness :
    (EmojiDownloader.download 1 { contentLength := some 2000, chunks := [] } true).result =
        Except.error "too large" ∧
    (EmojiDownloader.download 1 { contentLength := none, chunks := [1000, 1000, 500] }
        true).tempFile = none :=
  ⟨(download_size_enforcement.1 1 { contentLength := some 2000, chunks := [] } true 2000
      rfl (by omega)).1,
    (download_size_enforcement.2 1 { contentLength := none, chunks := [1000, 1000, 500] }
      true (fun n hn => by cases hn) (by simp)).2⟩

/-- C6: when the provider's fetch raises, `sync_provider` returns a
result whose four counters are all zero with exactly one error message;
the exception is absorbed by the `try/except` (the model returns
normally in every case), the cache is untouched and no download is
attempted. -/
theorem sync_fetch_failure (pt ns msg : String) (oracle : EmojiInfo → Except String Nat)
    (st : CacheState) (now ttl : Int) (force clean_on_build : Bool) :
    (SyncManager.sync_provider pt ns (.error msg) oracle st now ttl force
        clean_on_build).result.total_emojis = 0 ∧
    (SyncManager.sync_provider pt ns (.error msg) oracle st now ttl force
        clean_on_build).result.synced = 0 ∧
    (SyncManager.sync_provider pt ns (.error msg) oracle st now ttl force
        clean_on_build).result.cached = 0 ∧
    (SyncManager.sync_provider pt ns (.error msg) oracle st now ttl force
        clean_on_build).result.skipped = 0 ∧
    (SyncManager.sync_provider pt ns (.error msg) oracle st now ttl force
        clean_on_build).result.errors = ["Failed to fetch emojis: " ++ msg] ∧
    (SyncManager.sync_provider pt ns (.error msg) oracle st now ttl force
        clean_on_build).cache = st ∧
    (SyncManager.sync_provider pt ns (.error msg) oracle st now ttl force
        clean_on_build).downloads = 0 :=
  ⟨rfl, rfl, rfl, rfl, rfl, rfl, rfl⟩

theorem syncStep_counts (oracle : EmojiInfo → Except String Nat) (now ttl : Int)
    (force : Bool) (acc : SyncManager.LoopState) (p : String × EmojiInfo) :
    (SyncManager.syncStep oracle now ttl force acc p).result.synced +
        (SyncManager.syncStep oracle now ttl force acc p).result.cached +
        (SyncManager.syncStep oracle now ttl force acc p).result.skipped =
      acc.result.synced + acc.result.cached + acc.result.skipped + 1 ∧
    (SyncManager.syncStep oracle now ttl force acc p).result.total_emojis =
      acc.result.total_emojis := by
  unfold SyncManager.syncStep
  by_cases h : (!force && EmojiCache.is_cached now ttl acc.cache p.2) = true
  · simp [h]
    omega
  · simp only [Bool.not_eq_true] at h
    simp only [h, Bool.false_eq_true, if_false]
    by_cases hf : strOptFalsy p.2.url = true
    · simp [hf]
      omega
    · simp only [Bool.not_eq_true] at hf
      simp only [hf, Bool.false_eq_true, if_false]
      cases ho : oracle p.2 with
      | ok size => simp [ho]; omega
      | error msg => simp [ho]; omega

theorem syncLoop_counts (oracle : EmojiInfo → Except String Nat) (now ttl : Int)
    (force : Bool) :
    ∀ (l : List (String × EmojiInfo)) (acc : SyncManager.LoopState),
      (l.foldl (SyncManager.syncStep oracle now ttl force) acc).result.synced +
          (l.foldl (SyncManager.syncStep oracle now ttl force) acc).result.cached +
          (l.foldl (SyncManager.syncStep oracle now ttl force) acc).result.skipped =
        acc.result.synced + acc.result.cached + acc.result.skipped + l.length ∧
      (l.foldl (SyncManager.syncStep oracle now ttl force) acc).result.total_emojis =
        acc.result.total_emojis := by
  intro l
  induction l with
  | nil => intro acc; simp
  | cons p rest ih =>
    intro acc
    simp only [List.foldl_cons, List.length_cons]
    have h1 := syncStep_counts oracle now ttl force acc p
    have h2 := ih (SyncManager.syncStep oracle now ttl force acc p)
    omega

/-- C10: every `SyncResult` returned by `sync_provider` satisfies
`synced + cached + skipped = total_emojis` — each fetched record
increments exactly one of the three counters, and the fetch-failure path
returns four zeros. -/
theorem sync_counter_invariant (pt ns : String)
    (fetchResult : Except String (List (String × EmojiInfo)))
    (oracle : EmojiInfo → Except String Nat) (st : CacheState) (now ttl : Int)
    (force clean_on_build : Bool) :
    (SyncManager.sync_provider pt ns fetchResult oracle st now ttl force
        clean_on_build).result.synced +
      (SyncManager.sync_provider pt ns fetchResult oracle st now ttl force
        clean_on_build).result.cached +
      (SyncManager.sync_provider pt ns fetchResult oracle st now ttl force
        clean_on_build).result.skipped =
    (SyncManager.sync_provider pt ns fetchResult oracle st now ttl force
        clean_on_build).result.total_emojis := by
  cases fetchResult with
  | error msg => rfl
  | ok emojis =>
    unfold SyncManager.sync_provider
    have := syncLoop_counts oracle now ttl force emojis
      { result :=
          { provider := pt, nspace := ns, total_emojis := emojis.length, synced := 0,
            cached := 0, skipped := 0, errors := [] },
        cache := if clean_on_build || force then (EmojiCache.clean st).2 else st,
        downloads := 0 }
    simp only at this ⊢
    omega

theorem lookup_setEntry_self (k : String) (v : MetaEntry) (l : List (String × MetaEntry)) :
    (setEntry k v l).lookup k = some v := by
  induction l with
  | nil => simp [setEntry, List.lookup]
  | cons x xs ih =>
    obtain ⟨k', v'⟩ := x
    unfold setEntry
    by_cases hk : k' = k
    · rw [if_pos hk]
      exact lookup_cons_self k v _
    · rw [if_neg hk]
      rw [lookup_cons_ne k k' v' _ (fun h => hk h.symm)]
      exact ih

theorem lookup_setEntry_ne (k k' : String) (v : MetaEntry) (l : List (String × MetaEntry))
    (h : k' ≠ k) : (setEntry k v l).lookup k' = l.lookup k' := by
  induction l with
  | nil =>
    have hb : (k' == k) = false := beq_eq_false_iff_ne.mpr h
    simp [setEntry, List.lookup, hb]
  | cons x xs ih =>
    obtain ⟨k'', v''⟩ := x
    unfold setEntry
    by_cases hk : k'' = k
    · subst hk
      rw [if_pos rfl]
      rw [lookup_cons_ne k' k'' v _ h, lookup_cons_ne k' k'' v'' _ h]
    · rw [if_neg hk]
      by_cases hk2 : k' = k''
      · subst hk2
        rw [lookup_cons_self, lookup_cons_self]
      · rw [lookup_cons_ne k' k'' v'' _ hk2, lookup_cons_ne k' k'' v'' _ hk2]
        exact ih

/-- A record is durably stored at time `t1`: its metadata row exists
with `cached_at = t1` and its file is in the directory. -/
def StoredAt (t1 : Int) (st : CacheState) (e : EmojiInfo) : Prop :=
  (∃ m, st.metadata.lookup e.name = some m ∧ m.cached_at = some t1) ∧
    EmojiCache.cached_file_name e ∈ st.dirFiles

/-- All metadata rows of the state carry timestamp `t1`. -/
def MetaAllAt (t1 : Int) (st : CacheState) : Prop :=
  ∀ k m, st.metadata.lookup k = some m → m.cached_at = some t1

theorem store_StoredAt (t1 : Int) (st : CacheState) (e : EmojiInfo) (size : Nat) :
    StoredAt t1 (EmojiCache.store t1 st e size) e := by
  constructor
  · exact ⟨_, lookup_setEntry_self e.name _ st.metadata, rfl⟩
  · rw [EmojiCache.store]
    simp only
    rw [mem_ensureFile]
    left
    exact self_mem_ensureFile _ _

theorem store_preserves_StoredAt (t1 : Int) (st : CacheState) (e e' : EmojiInfo) (size : Nat)
    (h : StoredAt t1 st e') : StoredAt t1 (EmojiCache.store t1 st e size) e' := by
  obtain ⟨⟨m, hm, hmt⟩, hf⟩ := h
  constructor
  · by_cases hk : e'.name = e.name
    · rw [EmojiCache.store]
      simp only [hk]
      exact ⟨_, lookup_setEntry_self e.name _ st.metadata, rfl⟩
    · refine ⟨m, ?_, hmt⟩
      rw [EmojiCache.store]
      simp only
      rw [lookup_setEntry_ne e.name e'.name _ st.metadata hk]
      exact hm
  · rw [EmojiCache.store]
    simp only
    rw [mem_ensureFile]
    left
    rw [mem_ensureFile]
    left
    exact hf

theorem store_preserves_MetaAllAt (t1 : Int) (st : CacheState) (e : EmojiInfo) (size : Nat)
    (h : MetaAllAt t1 st) : MetaAllAt t1 (EmojiCache.store t1 st e size) := by
  intro k m hm
  rw [EmojiCache.store] at hm
  simp only at hm
  by_cases hk : k = e.name
  · subst hk
    rw [lookup_setEntry_self] at hm
    cases hm
    rfl
  · rw [lookup_setEntry_ne e.name k _ st.metadata hk] at hm
    exact h k m hm

theorem syncStep_run1 (oracle : EmojiInfo → Except String Nat) (t1 ttl : Int)
    (acc : SyncManager.LoopState) (p : String × EmojiInfo)
    (hQ : MetaAllAt t1 acc.cache) (hu : strOptFalsy p.2.url = false)
    (ho : ∃ sz, oracle p.2 = Except.ok sz) :
    MetaAllAt t1 (SyncManager.syncStep oracle t1 ttl false acc p).cache ∧
    StoredAt t1 (SyncManager.syncStep oracle t1 ttl false acc p).cache p.2 ∧
    (∀ e, StoredAt t1 acc.cache e →
      StoredAt t1 (SyncManager.syncStep oracle t1 ttl false acc p).cache e) := by
  unfold SyncManager.syncStep
  by_cases hc : EmojiCache.is_cached t1 ttl acc.cache p.2 = true
  · simp only [Bool.not_false, Bool.true_and, hc, if_true]
    refine ⟨hQ, ?_, fun e he => he⟩
    obtain ⟨m, hm, hmem, t, ht, _⟩ := (is_cached_iff_conditions t1 ttl acc.cache p.2).mp hc
    exact ⟨⟨m, hm, hQ p.2.name m hm⟩, hmem⟩
  · obtain ⟨sz, ho'⟩ := ho
    simp only [Bool.not_false, Bool.true_and, if_neg hc, hu, Bool.false_eq_true,
      if_false, ho']
    exact ⟨store_preserves_MetaAllAt t1 acc.cache p.2 sz hQ,
      store_StoredAt t1 acc.cache p.2 sz,
      fun e he => store_preserves_StoredAt t1 acc.cache p.2 e sz he⟩

theorem syncLoop_run1 (oracle : EmojiInfo → Except String Nat) (t1 ttl : Int) :
    ∀ (l : List (String × EmojiInfo)) (acc : SyncManager.LoopState),
      MetaAllAt t1 acc.cache →
      (∀ p ∈ l, strOptFalsy p.2.url = false) →
      (∀ p ∈ l, ∃ sz, oracle p.2 = Except.ok sz) →
      MetaAllAt t1 ((l.foldl (SyncManager.syncStep oracle t1 ttl false) acc)).cache ∧
      (∀ p ∈ l,
        StoredAt t1 (l.foldl (SyncManager.syncStep oracle t1 ttl false) acc).cache p.2) ∧
      (∀ e, StoredAt t1 acc.cache e →
        StoredAt t1 (l.foldl (SyncManager.syncStep oracle t1 ttl false) acc).cache e) := by
  intro l
  induction l with
  | nil =>
    intro acc hQ _ _
    exact ⟨hQ, by simp, fun e he => he⟩
  | cons p rest ih =>
    intro acc hQ hurl hok
    simp only [List.foldl_cons]
    have hstep := syncStep_run1 oracle t1 ttl acc p hQ (hurl p (by simp))
      (hok p (by simp))
    have hrest := ih (SyncManager.syncStep oracle t1 ttl false acc p) hstep.1
      (fun q hq => hurl q (by simp [hq])) (fun q hq => hok q (by simp [hq]))
    refine ⟨hrest.1, ?_, fun e he => hrest.2.2 e (hstep.2.2 e he)⟩
    intro q hq
    rcases List.mem_cons.mp hq with heq | hmem
    · subst heq
      exact hrest.2.2 q.2 hstep.2.1
    · exact hrest.2.1 q hmem

theorem syncStep_run2 (oracle : EmojiInfo → Except String Nat) (t1 t2 ttl : Int)
    (acc : SyncManager.LoopState) (p : String × EmojiInfo)
    (hs : StoredAt t1 acc.cache p.2) (hfresh : t2 - t1 < ttl * 3600) :
    SyncManager.syncStep oracle t2 ttl false acc p =
      { acc with result := { acc.result with cached := acc.result.cached + 1 } } := by
  have hc : EmojiCache.is_cached t2 ttl acc.cache p.2 = true := by
    apply (is_cached_iff_conditions t2 ttl acc.cache p.2).mpr
    obtain ⟨⟨m, hm, hmt⟩, hf⟩ := hs
    exact ⟨m, hm, hf, t1, hmt, hfresh⟩
  unfold SyncManager.syncStep
  simp only [Bool.not_false, Bool.true_and, hc, if_true]

theorem syncLoop_run2 (oracle : EmojiInfo → Except String Nat) (t1 t2 ttl : Int)
    (hfresh : t2 - t1 < ttl * 3600) :
    ∀ (l : List (String × EmojiInfo)) (acc : SyncManager.LoopState),
      (∀ p ∈ l, StoredAt t1 acc.cache p.2) →
      l.foldl (SyncManager.syncStep oracle t2 ttl false) acc =
        { acc with result :=
            { acc.result with cached := acc.result.cached + l.length } } := by
  intro l
  induction l with
  | nil =>
    intro acc _
    simp
  | cons p rest ih =>
    intro acc hs
    simp only [List.foldl_cons]
    rw [syncStep_run2 oracle t1 t2 ttl acc p (hs p (by simp)) hfresh]
    have hrest := ih
      { acc with result := { acc.result with cached := acc.result.cached + 1 } }
      (fun q hq => hs q (by simp [hq]))
    rw [hrest]
    simp only [List.length_cons, SyncManager.LoopState.mk.injEq, SyncResult.mk.injEq,
      and_true, true_and]
    omega

/-- C3: from a fresh cache, a first sync in which every record has a
truthy (present, nonempty) URL and every download succeeds, followed by
a second sync of the same fetched mapping — no `force`, no
`clean_on_build`, and the second run within the TTL — performs zero
downloads in the second run, which reports `synced = 0` and
`cached = total`, and leaves the cache unchanged. -/
theorem sync_idempotent (pt ns : String) (emojis : List (String × EmojiInfo))
    (oracle : EmojiInfo → Except String Nat) (t1 t2 ttl : Int)
    (hurl : ∀ p ∈ emojis, strOptFalsy p.2.url = false)
    (hok : ∀ p ∈ emojis, ∃ sz, oracle p.2 = Except.ok sz)
    (hfresh : t2 - t1 < ttl * 3600) :
    let run1 := SyncManager.sync_provider pt ns (Except.ok emojis) oracle
      CacheState.init t1 ttl false false
    let run2 := SyncManager.sync_provider pt ns (Except.ok emojis) oracle
      run1.cache t2 ttl false false
    run2.downloads = 0 ∧ run2.result.synced = 0 ∧
      run2.result.cached = emojis.length ∧
      run2.result.total_emojis = emojis.length ∧ run2.cache = run1.cache := by
  have e1 : SyncManager.sync_provider pt ns (Except.ok emojis) oracle
      CacheState.init t1 ttl false false =
      emojis.foldl (SyncManager.syncStep oracle t1 ttl false)
        { result :=
            { provider := pt, nspace := ns, total_emojis := emojis.length,
              synced := 0, cached := 0, skipped := 0, errors := [] },
          cache := CacheState.init, downloads := 0 } := rfl
  have hQ0 : MetaAllAt t1 (CacheState.init : CacheState) := by
    intro k m hm
    simp [CacheState.init, List.lookup] at hm
  have h1 := syncLoop_run1 oracle t1 ttl emojis
    { result :=
        { provider := pt, nspace := ns, total_emojis := emojis.length,
          synced := 0, cached := 0, skipped := 0, errors := [] },
      cache := CacheState.init, downloads := 0 } hQ0 hurl hok
  intro run1 run2
  have e2 : run2 = emojis.foldl (SyncManager.syncStep oracle t2 ttl false)
      { result :=
          { provider := pt, nspace := ns, total_emojis := emojis.length,
            synced := 0, cached := 0, skipped := 0, errors := [] },
        cache := run1.cache, downloads := 0 } := rfl
  have h2 := syncLoop_run2 oracle t1 t2 ttl hfresh emojis
    { result :=
        { provider := pt, nspace := ns, total_emojis := emojis.length,
          synced := 0, cached := 0, skipped := 0, errors := [] },
      cache := run1.cache, downloads := 0 }
    (by
      intro p hp
      have := h1.2.1 p hp
      show StoredAt t1 run1.cache p.2
      rw [show run1.cache =
          (emojis.foldl (SyncManager.syncStep oracle t1 ttl false)
            { result :=
                { provider := pt, nspace := ns, total_emojis := emojis.length,
                  synced := 0, cached := 0, skipped := 0, errors := [] },
              cache := CacheState.init, downloads := 0 }).cache from by rw [show run1 =
                SyncManager.sync_provider pt ns (Except.ok emojis) oracle
                  CacheState.init t1 ttl false false from rfl, e1]]
      exact this)
  rw [e2, h2]
  refine ⟨rfl, rfl, by simp, rfl, rfl⟩

/-- Witness for C3 at a one-emoji provider, runs at times 0 and 10 with
a 24-hour TTL. -/
theorem sync_idempotent_witness :
    let emojis : List (String × EmojiInfo) :=
      [("a", { name := "a", url := some "https://x/a.png" })]
    let run1 := SyncManager.sync_provider "slack" "sl" (Except.ok emojis)
      (fun _ => Except.ok 5) CacheState.init 0 24 false false
    let run2 := SyncManager.sync_provider "slack" "sl" (Except.ok emojis)
      (fun _ => Except.ok 5) run1.cache 10 24 false false
    run2.downloads = 0 ∧ run2.result.synced = 0 ∧ run2.result.cached = 1 ∧
      run2.result.total_emojis = 1 ∧ run2.cache = run1.cache :=
  sync_idempotent "slack" "sl" [("a", { name := "a", url := some "https://x/a.png" })]
    (fun _ => Except.ok 5) 0 10 24
    (fun p hp => by fin_cases hp; rfl)
    (fun p _ => ⟨5, rfl⟩)
    (by decide)

theorem lookup_eq_none_of_keys_ne (name : String) (l : List (String × EmojiInfo))
    (h : ∀ q ∈ l, q.1 ≠ name) : l.lookup name = none := by
  induction l with
  | nil => rfl
  | cons x xs ih =>
    obtain ⟨k, v⟩ := x
    rw [lookup_cons_ne name k v xs (fun he => h (k, v) (by simp) he.symm)]
    exact ih (fun q hq => h q (by simp [hq]))

theorem resolveStep_append (emojis resolved : List (String × EmojiInfo))
    (p : String × EmojiInfo) :
    ∃ t, AbstractEmojiProvider.resolveStep emojis resolved p = resolved ++ t ∧
      ∀ q ∈ t, q.1 = p.1 := by
  unfold AbstractEmojiProvider.resolveStep
  by_cases ha : (p.2.isAlias && !strOptFalsy p.2.alias_of) = true
  · rw [if_pos ha]
    cases hao : p.2.alias_of with
    | none => exact ⟨[], by simp⟩
    | some t0 =>
      cases hl : resolved.lookup (AbstractEmojiProvider.walkChain emojis 10 t0) with
      | none =>
        refine ⟨[], ?_, by simp⟩
        simp only [hl]
        simp
      | some tgt =>
        refine ⟨[(p.1, { name := p.1, url := tgt.url, format := tgt.format })], ?_, ?_⟩
        · simp only [hl]
        · intro q hq
          simp at hq
          rw [hq]
  · rw [if_neg ha]
    exact ⟨[], by simp⟩

theorem resolveFold_preserves_some (emojis : List (String × EmojiInfo)) (k : String)
    (v : EmojiInfo) :
    ∀ (l acc : List (String × EmojiInfo)), acc.lookup k = some v →
      (l.foldl (AbstractEmojiProvider.resolveStep emojis) acc).lookup k = some v := by
  intro l
  induction l with
  | nil => intro acc h; exact h
  | cons p rest ih =>
    intro acc h
    simp only [List.foldl_cons]
    obtain ⟨t, ht, _⟩ := resolveStep_append emojis acc p
    rw [ht]
    exact ih (acc ++ t) (lookup_append_some k v acc t h)

theorem resolveFold_stable (emojis : List (String × EmojiInfo)) (name : String)
    (v : EmojiInfo) :
    ∀ (l acc : List (String × EmojiInfo)), acc.lookup name = some v →
      (∀ q ∈ l, q.1 ≠ name) →
      (l.foldl (AbstractEmojiProvider.resolveStep emojis) acc).lookup name = some v :=
  fun l acc h _ => resolveFold_preserves_some emojis name v l acc h

theorem resolveFold_main (emojis : List (String × EmojiInfo)) (name t0 tc : String)
    (e te : EmojiInfo) (he : e.alias_of = some t0) (ht0 : t0 ≠ "")
    (htc : AbstractEmojiProvider.walkChain emojis 10 t0 = tc) :
    ∀ (l acc : List (String × EmojiInfo)),
      (l.map Prod.fst).Nodup →
      acc.lookup name = none →
      l.lookup name = some e →
      acc.lookup tc = some te →
      (l.foldl (AbstractEmojiProvider.resolveStep emojis) acc).lookup name =
        some { name := name, url := te.url, format := te.format } := by
  intro l
  induction l with
  | nil =>
    intro acc _ _ hl _
    simp [List.lookup] at hl
  | cons p rest ih =>
    intro acc hnd haccn hl hacctc
    obtain ⟨k, v⟩ := p
    simp only [List.map_cons, List.nodup_cons] at hnd
    simp only [List.foldl_cons]
    by_cases hk : k = name
    · subst hk
      rw [lookup_cons_self] at hl
      cases hl
      have hstep : AbstractEmojiProvider.resolveStep emojis acc (k, e) =
          acc ++ [(k, { name := k, url := te.url, format := te.format })] := by
        unfold AbstractEmojiProvider.resolveStep
        have ha : ((k, e).2.isAlias && !strOptFalsy (k, e).2.alias_of) = true := by
          simp [EmojiInfo.isAlias, strOptFalsy, he, ht0]
        rw [if_pos ha]
        simp only [he, htc, hacctc]
      rw [hstep]
      apply resolveFold_preserves_some
      rw [lookup_append_none k acc _ haccn]
      exact lookup_cons_self k _ []
    · obtain ⟨t, ht, hkeys⟩ := resolveStep_append emojis acc (k, v)
      rw [ht]
      apply ih (acc ++ t) hnd.2
      · rw [lookup_append_none name acc t haccn]
        exact lookup_eq_none_of_keys_ne name t
          (fun q hq => by rw [hkeys q hq]; exact hk)
      · rw [lookup_cons_ne name k v rest (fun h => hk h.symm)] at hl
        exact hl
      · exact lookup_append_some tc te acc t hacctc

theorem resolve_alias_lookup (emojis : List (String × EmojiInfo)) (name t0 tc : String)
    (e te : EmojiInfo)
    (hnd : (emojis.map Prod.fst).Nodup)
    (hl : emojis.lookup name = some e)
    (he : e.alias_of = some t0) (ht0 : t0 ≠ "")
    (htc : AbstractEmojiProvider.walkChain emojis 10 t0 = tc)
    (hte : emojis.lookup tc = some te)
    (htena : te.isAlias = false) :
    (AbstractEmojiProvider.resolve_aliases emojis).lookup name =
      some { name := name, url := te.url, format := te.format } := by
  unfold AbstractEmojiProvider.resolve_aliases
  apply resolveFold_main emojis name t0 tc e te he ht0 htc emojis _ hnd ?_ hl ?_
  · apply lookup_filter_of_eq_false
    intro x hx hx1
    have hxe := mem_eq_of_nodup_keys name e x emojis hnd hl hx hx1
    rw [hxe]
    simp [EmojiInfo.isAlias, he]
  · exact lookup_filter_of_eq_true tc te _ emojis hte (by simp [htena])

theorem walkChain_concrete (emojis : List (String × EmojiInfo)) (c : String)
    (ce : EmojiInfo) (hc : emojis.lookup c = some ce) (hna : ce.isAlias = false) :
    ∀ f, AbstractEmojiProvider.walkChain emojis f c = c := by
  intro f
  cases f with
  | zero => rfl
  | succ f =>
    unfold AbstractEmojiProvider.walkChain
    rw [hc]
    simp [hna]

theorem walkChain_chain (emojis : List (String × EmojiInfo)) (a : Nat → String)
    (c : String) (ce : EmojiInfo) (N : Nat)
    (hch : ∀ i, i < N → ∃ r, emojis.lookup (a i) = some r ∧
        r.alias_of = some (if i + 1 < N then a (i + 1) else c))
    (hc : emojis.lookup c = some ce) (hna : ce.isAlias = false) :
    ∀ f j, j < N → N - j ≤ f → AbstractEmojiProvider.walkChain emojis f (a j) = c := by
  intro f
  induction f with
  | zero =>
    intro j hj hf
    omega
  | succ f ih =>
    intro j hj hf
    obtain ⟨r, hr, hro⟩ := hch j hj
    have ha : r.isAlias = true := by simp [EmojiInfo.isAlias, hro]
    by_cases hjn : j + 1 < N
    · rw [if_pos hjn] at hro
      unfold AbstractEmojiProvider.walkChain
      rw [hr]
      simp only [ha, hro, if_true]
      exact ih (j + 1) hjn (by omega)
    · rw [if_neg hjn] at hro
      unfold AbstractEmojiProvider.walkChain
      rw [hr]
      simp only [ha, hro, if_true]
      exact walkChain_concrete emojis c ce hc hna f

theorem walkChain_in_cycle (emojis : List (String × EmojiInfo)) (C : List String)
    (σ : String → String) (hσ : ∀ m ∈ C, σ m ∈ C)
    (hrec : ∀ m ∈ C, ∃ r, emojis.lookup m = some r ∧ r.alias_of = some (σ m)) :
    ∀ f m, m ∈ C → AbstractEmojiProvider.walkChain emojis f m ∈ C := by
  intro f
  induction f with
  | zero => intro m hm; exact hm
  | succ f ih =>
    intro m hm
    obtain ⟨r, hr, hro⟩ := hrec m hm
    unfold AbstractEmojiProvider.walkChain
    rw [hr]
    simp only [show r.isAlias = true from by simp [EmojiInfo.isAlias, hro], hro, if_true]
    exact ih (σ m) (hσ m hm)

theorem resolveFold_cycle (emojis : List (String × EmojiInfo)) (C : List String)
    (σ : String → String) (hσ : ∀ m ∈ C, σ m ∈ C)
    (hrec : ∀ m ∈ C, ∃ r, emojis.lookup m = some r ∧ r.alias_of = some (σ m))
    (hnd : (emojis.map Prod.fst).Nodup) :
    ∀ (l acc : List (String × EmojiInfo)),
      (∀ q ∈ l, q ∈ emojis) →
      (∀ m ∈ C, acc.lookup m = none) →
      ∀ m ∈ C, (l.foldl (AbstractEmojiProvider.resolveStep emojis) acc).lookup m = none := by
  intro l
  induction l with
  | nil => intro acc _ hacc m hm; exact hacc m hm
  | cons p rest ih =>
    intro acc hsub hacc
    obtain ⟨k, v⟩ := p
    simp only [List.foldl_cons]
    by_cases hkC : k ∈ C
    · obtain ⟨r, hr, hro⟩ := hrec k hkC
      have hv : (k, v) = (k, r) :=
        mem_eq_of_nodup_keys k r (k, v) emojis hnd hr (hsub (k, v) (by simp)) rfl
      have hv2 : v = r := congrArg Prod.snd hv
      subst hv2
      have hstep : AbstractEmojiProvider.resolveStep emojis acc (k, v) = acc := by
        unfold AbstractEmojiProvider.resolveStep
        by_cases hσe : σ k = ""
        · rw [if_neg (by simp [strOptFalsy, hro, hσe])]
        · rw [if_pos (by simp [EmojiInfo.isAlias, strOptFalsy, hro, hσe])]
          simp only [hro]
          have htgt : AbstractEmojiProvider.walkChain emojis 10 (σ k) ∈ C :=
            walkChain_in_cycle emojis C σ hσ hrec 10 (σ k) (hσ k hkC)
          rw [hacc _ htgt]
      rw [hstep]
      exact ih acc (fun q hq => hsub q (by simp [hq])) hacc
    · obtain ⟨t, ht, hkeys⟩ := resolveStep_append emojis acc (k, v)
      rw [ht]
      apply ih (acc ++ t) (fun q hq => hsub q (by simp [hq]))
      intro m hm
      rw [lookup_append_none m acc t (hacc m hm)]
      apply lookup_eq_none_of_keys_ne m t
      intro q hq heq
      have hkm : k = m := (hkeys q hq).symm.trans heq
      exact hkC (hkm ▸ hm)

/-- C1 (amended): alias resolution walks each alias's `alias_of` chain
through the original mapping, one hop per step, stopping early at a
non-alias target, for at most `max_depth = 10` hops past the first (an
alias whose target name is the falsy empty string is skipped by the
source's truthiness guard, hence the nonempty-name hypotheses).
Consequently (a) a chain of `N ≤ 11` aliases with nonempty names ending
in a concrete emoji resolves every link to a record carrying the
concrete target's URL and format (chains longer than 11 can leave their
earliest links unresolved, see the counterexample), and (b) every
member of an alias cycle, of any length, is silently omitted from the
result with no error raised. -/
theorem resolve_aliases_spec :
    (∀ (emojis : List (String × EmojiInfo)) (a : Nat → String) (c : String)
        (ce : EmojiInfo) (N : Nat),
        (emojis.map Prod.fst).Nodup →
        N ≤ 11 →
        (∀ i, i < N → a i ≠ "") →
        c ≠ "" →
        (∀ i, i < N → ∃ r, emojis.lookup (a i) = some r ∧
          r.alias_of = some (if i + 1 < N then a (i + 1) else c)) →
        emojis.lookup c = some ce →
        ce.isAlias = false →
        ∀ i, i < N →
          (AbstractEmojiProvider.resolve_aliases emojis).lookup (a i) =
            some { name := a i, url := ce.url, format := ce.format }) ∧
    (∀ (emojis : List (String × EmojiInfo)) (C : List String) (σ : String → String),
        (emojis.map Prod.fst).Nodup →
        (∀ m ∈ C, σ m ∈ C) →
        (∀ m ∈ C, ∃ r, emojis.lookup m = some r ∧ r.alias_of = some (σ m)) →
        ∀ m ∈ C, (AbstractEmojiProvider.resolve_aliases emojis).lookup m = none) := by
  constructor
  · intro emojis a c ce N hnd hN hane hcne hch hc hce i hi
    obtain ⟨r, hr, hro⟩ := hch i hi
    by_cases hin : i + 1 < N
    · rw [if_pos hin] at hro
      exact resolve_alias_lookup emojis (a i) (a (i + 1)) c r ce hnd hr hro
        (hane (i + 1) hin)
        (walkChain_chain emojis a c ce N hch hc hce 10 (i + 1) hin (by omega)) hc hce
    · rw [if_neg hin] at hro
      exact resolve_alias_lookup emojis (a i) c c r ce hnd hr hro hcne
        (walkChain_concrete emojis c ce hc hce 10) hc hce
  · intro emojis C σ hnd hσ hrec m hm
    unfold AbstractEmojiProvider.resolve_aliases
    apply resolveFold_cycle emojis C σ hσ hrec hnd emojis _ (fun q hq => hq) ?_ m hm
    intro m' hm'
    obtain ⟨r, hr, hro⟩ := hrec m' hm'
    apply lookup_filter_of_eq_false
    intro x hx hx1
    have hxe := mem_eq_of_nodup_keys m' r x emojis hnd hr hx hx1
    rw [hxe]
    simp [EmojiInfo.isAlias, hro]

/-- Alias record pointing at a target (`EmojiInfo.from_alias`). -/
def aliasTo (n t : String) : EmojiInfo :=
  { name := n, url := none, alias_of := some t }

/-- A chain of twelve aliases `a1 → a2 → ... → a12 → c` ending in the
concrete emoji `c`. -/
def chainTwelve : List (String × EmojiInfo) :=
  [("a1", aliasTo "a1" "a2"), ("a2", aliasTo "a2" "a3"), ("a3", aliasTo "a3" "a4"),
    ("a4", aliasTo "a4" "a5"), ("a5", aliasTo "a5" "a6"), ("a6", aliasTo "a6" "a7"),
    ("a7", aliasTo "a7" "a8"), ("a8", aliasTo "a8" "a9"), ("a9", aliasTo "a9" "a10"),
    ("a10", aliasTo "a10" "a11"), ("a11", aliasTo "a11" "a12"),
    ("a12", aliasTo "a12" "c"),
    ("c", { name := "c", url := some "https://x/c.png", format := some .png })]

/-- C1 counterexample: the claim promises that a chain of `N` aliases
ending in a concrete emoji resolves *every* link.  On a chain of twelve
aliases the walk from `a1` exhausts `max_depth = 10` at `a12`, which is
still an alias and (in this insertion order) not yet in the resolved
mapping, so `a1` is silently omitted — while `a2`, one hop closer,
resolves to the concrete URL and format. -/
theorem resolve_aliases_cex :
    (AbstractEmojiProvider.resolve_aliases chainTwelve).lookup "a1" = none ∧
    (AbstractEmojiProvider.resolve_aliases chainTwelve).lookup "a2" =
      some { name := "a2", url := some "https://x/c.png", format := some EmojiFormat.png } := by
  refine ⟨by rfl, by rfl⟩

/-- Witness for C1's amended theorem: a one-alias chain `b → c`
resolves to `c`'s URL and format, and a two-cycle `p ↔ q` is dropped. -/
theorem resolve_aliases_spec_witness :
    (AbstractEmojiProvider.resolve_aliases
        [("b", { name := "b", url := none, alias_of := some "c" }),
          ("c", { name := "c", url := some "https://x/c.png", format := some .png })]).lookup
      "b" = some { name := "b", url := some "https://x/c.png",
                   format := some EmojiFormat.png } ∧
    (AbstractEmojiProvider.resolve_aliases
        [("p", { name := "p", url := none, alias_of := some "q" }),
          ("q", { name := "q", url := none, alias_of := some "p" })]).lookup "p" = none :=
  ⟨resolve_aliases_spec.1
      [("b", { name := "b", url := none, alias_of := some "c" }),
        ("c", { name := "c", url := some "https://x/c.png", format := some .png })]
      (fun _ => "b") "c" { name := "c", url := some "https://x/c.png", format := some .png }
      1 (by decide) (by omega)
      (fun i hi => by interval_cases i; decide)
      (by decide)
      (fun i hi => by interval_cases i; exact ⟨_, rfl, rfl⟩)
      rfl rfl 0 (by omega),
    resolve_aliases_spec.2
      [("p", { name := "p", url := none, alias_of := some "q" }),
        ("q", { name := "q", url := none, alias_of := some "p" })]
      ["p", "q"] (fun m => if m = "p" then "q" else "p")
      (by decide) (by decide)
      (fun m hm => by
        fin_cases hm
        · exact ⟨_, rfl, rfl⟩
        · exact ⟨_, rfl, rfl⟩)
      "p" (by simp)⟩
